import Mathlib

/-!
Verification of the cachefs repository (a read-only caching layer over an
`fs.FS`, backed by groupcache).

The development shallowly embeds the Go source:

* the cached-entry data model (`fileInfo`, `dirEntry`, `file`) from `file.go`;
* the record codec used by `New`'s getter (gob-encoded header followed by the
  raw content bytes) and by `cacheFS.Open` (gob decode through the
  byte-counting reader `countingReader`, then slicing from the counted
  offset).  The external `encoding/gob` library is modelled, specialised to
  the `file` struct, as an executable self-delimiting byte encoding of the
  exported fields (`FI`, then `Dirs`), which is the property of gob the code
  relies on: the decoder consumes exactly the bytes the encoder wrote;
* `(*file).ReadDir` and its cursor (`pos`) state machine;
* `quantize` and the adler32 checksum it uses, with bit-exact float64
  rounding for the offset expression (`rnd53`: round-to-nearest, ties to
  even, to 53 significant bits) and wrapping int64 arithmetic for the
  divisor sum and the final division (`wrap64`, `goDiv64`);
* the composite cache key built by `cacheFS.Open` via `net/url` `Values`
  (`Encode`) and parsed back in the getter via `url.ParseQuery`; the
  `net/url` query escaping/parsing is modelled byte-for-byte;
* the getter's directory-listing loop (per-child `Info` fetch, skipping
  children whose `Info` call fails).

Go machine integers are modelled as `Int`/`Nat`; Go integer division
truncates toward zero, which is `Int.tdiv`, and int64 overflow wraps
modulo `2^64` where the flow of values can reach it (the quantize
divisor).  Bytes are `Nat`s (< 256 where a claim needs it).  Strings are
byte lists.
-/

/-- Metadata about a cached file: `fileInfo` from `file.go`.  `Nm` is the
name (as a byte string), `Sz` the size, `Md` the `fs.FileMode` bits
(a uint32), `Mt` the modification time (as UnixNano). -/
structure fileInfo where
  Nm : List Nat
  Sz : Int
  Md : Nat
  Mt : Int
  deriving DecidableEq, Repr

/-- Go's `fs.FileMode.IsDir`: the `ModeDir` bit is bit 31 of the mode word. -/
def fileInfo.IsDir (fi : fileInfo) : Bool :=
  fi.Md.testBit 31

/-- Directory entry as cached: `dirEntry` from `file.go`, a `fileInfo`
wrapper. -/
structure dirEntry where
  FI : fileInfo
  deriving DecidableEq, Repr

/-- Cached file: `file` from `file.go`.  `FI` and `Dirs` are the exported
(gob-encoded) fields; `pos` is the unexported directory-read cursor, which
gob does not encode, so a decoded `file` always has `pos = 0` (Go zero
value).  The content (`io.ReadSeeker`) lives outside the struct in this
model: encode/decode pass it separately, as the raw tail of the record. -/
structure file where
  FI : fileInfo
  pos : Int
  Dirs : List dirEntry
  deriving DecidableEq, Repr

/-! ## The gob model

`encoding/gob` is external to the repository; we model it, specialised to
the `file` struct, as a self-delimiting byte encoding: naturals as
little-endian base-128 varints, integers zigzagged, byte strings and lists
length-prefixed.  What the repository's codec relies on (and what we prove)
is that decoding consumes exactly the bytes encoding produced and inverts
it. -/

/-- Varint encoding of a natural: chunks of 7 bits, a final byte `< 128`. -/
def gobEncNat (n : Nat) : List Nat :=
  if h : n < 128 then [n]
  else (n % 128 + 128) :: gobEncNat (n / 128)
  decreasing_by exact Nat.div_lt_self (by omega) (by omega)

/-- Zigzag mapping of an integer to a natural. -/
def zigzag (i : Int) : Nat :=
  if 0 ≤ i then (2 * i).toNat else (2 * (-i) - 1).toNat

/-- Inverse of `zigzag`. -/
def unzigzag (n : Nat) : Int :=
  if n % 2 = 0 then (n / 2 : Nat) else -(((n + 1) / 2 : Nat) : Int)

/-- Integer encoding: zigzag then varint. -/
def gobEncInt (i : Int) : List Nat :=
  gobEncNat (zigzag i)

/-- Byte-string encoding: length prefix, then the raw bytes. -/
def gobEncBytes (s : List Nat) : List Nat :=
  gobEncNat s.length ++ s

/-- Header encoding of `fileInfo`: the four fields in declaration order. -/
def gobEncFileInfo (fi : fileInfo) : List Nat :=
  gobEncBytes fi.Nm ++ gobEncInt fi.Sz ++ gobEncNat fi.Md ++ gobEncInt fi.Mt

/-- Header encoding of a `dirEntry`. -/
def gobEncDirEntry (e : dirEntry) : List Nat :=
  gobEncFileInfo e.FI

/-- Header encoding of the `Dirs` list: length prefix, then each entry. -/
def gobEncDirs (l : List dirEntry) : List Nat :=
  gobEncNat l.length ++ (l.map gobEncDirEntry).flatten

/-- Gob encoding of the exported fields of `file` (`FI`, then `Dirs`); the
unexported `pos` is not encoded. -/
def file.gobEncode (f : file) : List Nat :=
  gobEncFileInfo f.FI ++ gobEncDirs f.Dirs

/-- Record written by `New`'s getter: the gob-encoded header, and then the
raw content bytes appended with no framing (`buf.Write(data)` after
`encoder.Encode(resultFile)`). -/
def encodeRecord (f : file) (data : List Nat) : List Nat :=
  f.gobEncode ++ data

/-- Reader that counts how many bytes have been read (`countingReader` from
the source): the wrapped reader is the list of bytes not yet consumed. -/
structure countingReader where
  Reader : List Nat
  count : Nat
  deriving DecidableEq, Repr

/-- Count returns the number of bytes read. -/
def countingReader.Count (c : countingReader) : Nat :=
  c.count

/-- ReadByte: deliver one byte and count it; end of input is an error. -/
def countingReader.ReadByte (c : countingReader) : Option (Nat × countingReader) :=
  match c.Reader with
  | [] => none
  | b :: r => some (b, ⟨r, c.count + 1⟩)

/-- Read `n` bytes through the counting reader (gob reads byte strings with
sized reads; every byte delivered is counted). -/
def countingReader.ReadN (c : countingReader) (n : Nat) : Option (List Nat × countingReader) :=
  if n ≤ c.Reader.length then some (c.Reader.take n, ⟨c.Reader.drop n, c.count + n⟩)
  else none

/-- Varint decoding through the counting reader. -/
def gobDecNat : countingReader → Option (Nat × countingReader)
  | ⟨[], _⟩ => none
  | ⟨b :: r, k⟩ =>
    if b < 128 then some (b, ⟨r, k + 1⟩)
    else
      match gobDecNat ⟨r, k + 1⟩ with
      | some (n, c) => some (n * 128 + (b - 128), c)
      | none => none
  termination_by c => c.Reader.length

/-- Integer decoding: varint then unzigzag. -/
def gobDecInt (c : countingReader) : Option (Int × countingReader) :=
  match gobDecNat c with
  | some (n, c1) => some (unzigzag n, c1)
  | none => none

/-- Byte-string decoding: length prefix then raw bytes. -/
def gobDecBytes (c : countingReader) : Option (List Nat × countingReader) :=
  match gobDecNat c with
  | some (n, c1) => c1.ReadN n
  | none => none

/-- Decoding of a `fileInfo` header. -/
def gobDecFileInfo (c : countingReader) : Option (fileInfo × countingReader) :=
  match gobDecBytes c with
  | some (nm, c1) =>
    match gobDecInt c1 with
    | some (sz, c2) =>
      match gobDecNat c2 with
      | some (md, c3) =>
        match gobDecInt c3 with
        | some (mt, c4) => some (⟨nm, sz, md, mt⟩, c4)
        | none => none
      | none => none
    | none => none
  | none => none

/-- Decoding of `n` directory entries in sequence. -/
def gobDecDirsAux : Nat → countingReader → Option (List dirEntry × countingReader)
  | 0, c => some ([], c)
  | n + 1, c =>
    match gobDecFileInfo c with
    | some (fi, c1) =>
      match gobDecDirsAux n c1 with
      | some (l, c2) => some (⟨fi⟩ :: l, c2)
      | none => none
    | none => none

/-- Decoding of the `Dirs` list: length prefix, then the entries. -/
def gobDecDirs (c : countingReader) : Option (List dirEntry × countingReader) :=
  match gobDecNat c with
  | some (n, c1) => gobDecDirsAux n c1
  | none => none

/-- Gob decoding of a `file`: the exported fields in order; the unexported
cursor `pos` comes back as the Go zero value 0. -/
def gobDecFile (c : countingReader) : Option (file × countingReader) :=
  match gobDecFileInfo c with
  | some (fi, c1) =>
    match gobDecDirs c1 with
    | some (dirs, c2) => some (⟨fi, 0, dirs⟩, c2)
    | none => none
  | none => none

/-- Decode path of `cacheFS.Open`: run the gob decoder over a counting
reader that starts at the head of the cache buffer, then take the rest of
the buffer — sliced from the counted offset (`buf.SliceFrom(rdr.Count())`)
— as the file content. -/
def cacheFSOpenDecode (buf : List Nat) : Option (file × List Nat) :=
  match gobDecFile ⟨buf, 0⟩ with
  | some (f, rdr) => some (f, buf.drop rdr.Count)
  | none => none

/-! ### Round-trip lemmas for the codec -/

theorem gobDecNat_append (n : Nat) (t : List Nat) (k : Nat) :
    gobDecNat ⟨gobEncNat n ++ t, k⟩ = some (n, ⟨t, k + (gobEncNat n).length⟩) := by
  induction n using Nat.strong_induction_on generalizing k with
  | _ n ih =>
    rw [gobEncNat]
    by_cases h : n < 128
    · rw [dif_pos h]
      simp [gobDecNat, h]
    · rw [dif_neg h]
      have hrec := ih (n / 128) (Nat.div_lt_self (by omega) (by omega)) (k + 1)
      have hb : ¬ (n % 128 + 128 < 128) := by omega
      have hmod : n / 128 * 128 + (n % 128 + 128 - 128) = n := by
        have := Nat.div_add_mod n 128
        omega
      simp only [List.cons_append, gobDecNat]
      rw [if_neg hb, hrec]
      simp only [Option.some.injEq, Prod.mk.injEq, countingReader.mk.injEq,
        List.length_cons, true_and]
      constructor
      · omega
      · omega

theorem zigzag_inverse (i : Int) : unzigzag (zigzag i) = i := by
  unfold zigzag unzigzag
  by_cases h : 0 ≤ i
  · rw [if_pos h]
    have h2 : (2 * i).toNat = 2 * i.toNat := by omega
    rw [h2, if_pos (by omega)]
    omega
  · rw [if_neg h]
    have h2 : (2 * (-i) - 1).toNat = 2 * (-i).toNat - 1 := by omega
    have h3 : 1 ≤ (-i).toNat := by omega
    rw [h2, if_neg (by omega)]
    omega

theorem gobDecInt_append (i : Int) (t : List Nat) (k : Nat) :
    gobDecInt ⟨gobEncInt i ++ t, k⟩ = some (i, ⟨t, k + (gobEncInt i).length⟩) := by
  unfold gobDecInt gobEncInt
  rw [gobDecNat_append]
  simp [zigzag_inverse]

theorem gobDecBytes_append (s t : List Nat) (k : Nat) :
    gobDecBytes ⟨gobEncBytes s ++ t, k⟩ = some (s, ⟨t, k + (gobEncBytes s).length⟩) := by
  unfold gobDecBytes gobEncBytes
  rw [List.append_assoc, gobDecNat_append]
  simp only [countingReader.ReadN, List.length_append, Nat.le_add_right, if_pos,
    List.take_left, List.drop_left, Option.some.injEq, Prod.mk.injEq,
    countingReader.mk.injEq, true_and]
  omega

theorem gobDecFileInfo_append (fi : fileInfo) (t : List Nat) (k : Nat) :
    gobDecFileInfo ⟨gobEncFileInfo fi ++ t, k⟩ =
      some (fi, ⟨t, k + (gobEncFileInfo fi).length⟩) := by
  unfold gobDecFileInfo gobEncFileInfo
  rw [List.append_assoc, List.append_assoc, List.append_assoc,
    gobDecBytes_append]
  simp only []
  rw [gobDecInt_append]
  simp only []
  rw [gobDecNat_append]
  simp only []
  rw [gobDecInt_append]
  simp only [List.length_append, Option.some.injEq, Prod.mk.injEq,
    countingReader.mk.injEq, true_and]
  omega

theorem gobDecDirsAux_append (l : List dirEntry) (t : List Nat) (k : Nat) :
    gobDecDirsAux l.length ⟨(l.map gobEncDirEntry).flatten ++ t, k⟩ =
      some (l, ⟨t, k + (l.map gobEncDirEntry).flatten.length⟩) := by
  induction l generalizing k with
  | nil => simp [gobDecDirsAux]
  | cons e rest ih =>
    simp only [List.length_cons, List.map_cons, List.flatten_cons, List.append_assoc,
      gobDecDirsAux, gobEncDirEntry]
    rw [gobDecFileInfo_append]
    simp only []
    rw [ih]
    simp only [Option.some.injEq, Prod.mk.injEq, countingReader.mk.injEq,
      List.length_append, true_and]
    omega

theorem gobDecDirs_append (l : List dirEntry) (t : List Nat) (k : Nat) :
    gobDecDirs ⟨gobEncDirs l ++ t, k⟩ = some (l, ⟨t, k + (gobEncDirs l).length⟩) := by
  unfold gobDecDirs gobEncDirs
  rw [List.append_assoc, gobDecNat_append]
  simp only []
  rw [gobDecDirsAux_append]
  simp only [Option.some.injEq, Prod.mk.injEq, countingReader.mk.injEq,
    List.length_append, true_and]
  omega

theorem gobDecFile_append (f : file) (t : List Nat) (k : Nat) :
    gobDecFile ⟨f.gobEncode ++ t, k⟩ =
      some (⟨f.FI, 0, f.Dirs⟩, ⟨t, k + f.gobEncode.length⟩) := by
  unfold gobDecFile file.gobEncode
  rw [List.append_assoc, gobDecFileInfo_append]
  simp only []
  rw [gobDecDirs_append]
  simp only [Option.some.injEq, Prod.mk.injEq, countingReader.mk.injEq,
    List.length_append, true_and]
  omega

/-! ## Directory reads: `(*file).ReadDir` -/

/-- Errors `ReadDir` can return: the "not a directory" `PathError`, or
`io.EOF` at the end of a paged directory read. -/
inductive ReadDirError where
  | notADirectory (path : List Nat)
  | eof
  deriving DecidableEq, Repr

/-- Model of `(*file).ReadDir` from `file.go`: returns the result (or
error) together with the updated receiver.  With `n ≤ 0` it copies the
whole `Dirs` slice (indices `0 ..< len`) and does not touch `pos`; with
`n > 0` it takes `min n (len - pos)` entries starting at `pos` (`max` in
the source), returns `io.EOF` when that count is zero, and otherwise
advances `pos` by it. -/
def file.ReadDir (f : file) (n : Int) :
    Except ReadDirError (List dirEntry) × file :=
  if ¬ f.FI.IsDir then (.error (.notADirectory f.FI.Nm), f)
  else if n ≤ 0 then (.ok f.Dirs, f)
  else if min n ((f.Dirs.length : Int) - f.pos) = 0 then (.error .eof, f)
  else
    (.ok ((f.Dirs.drop f.pos.toNat).take (min n ((f.Dirs.length : Int) - f.pos)).toNat),
      { f with pos := f.pos + min n ((f.Dirs.length : Int) - f.pos) })

/-- Repeated `ReadDir` calls with the same argument, collecting the pages
until the first error; `fuel` bounds the number of calls (one more call
than there are entries always suffices when `n > 0`). -/
def readDirPagesAux : Nat → file → Int →
    List (List dirEntry) × Option ReadDirError × file
  | 0, f, _ => ([], none, f)
  | fuel + 1, f, n =>
    match f.ReadDir n with
    | (.error e, f1) => ([], some e, f1)
    | (.ok l, f1) =>
      let r := readDirPagesAux fuel f1 n
      (l :: r.1, r.2.1, r.2.2)

/-- Pages obtained by calling `ReadDir n` repeatedly until the first error,
starting from `f`. -/
def readDirPages (f : file) (n : Int) :
    List (List dirEntry) × Option ReadDirError × file :=
  readDirPagesAux (f.Dirs.length + 1) f n

/-- State after a sequence of `ReadDir` calls with the given arguments. -/
def applyReadDirs (f : file) (calls : List Int) : file :=
  calls.foldl (fun g n => (g.ReadDir n).2) f

/-- Cursor invariant: the directory read position stays between 0 and the
number of children. -/
def cursorInv (f : file) : Prop :=
  0 ≤ f.pos ∧ f.pos ≤ (f.Dirs.length : Int)

instance (f : file) : Decidable (cursorInv f) := by
  unfold cursorInv
  infer_instance

/-! ## The getter's directory-listing loop -/

/-- One child as enumerated by the inner filesystem's `ReadDir(-1)`: its
`Name()`, its `Type()` bits, and the result of its `Info()` call, which
either fails (modelled by `Except.error`) or yields the full stat
metadata. -/
structure rawEntry where
  name : List Nat
  typ : Nat
  info : Except Unit fileInfo
  deriving Repr

/-- Directory-listing loop of `New`'s getter: with `noStat = false` it
calls `entry.Info()` on each child and, when that fails, skips the child
(`continue` — "Pretend it doesn't exist, like (*os.File).Readdir does.");
with `noStat = true` it records only name and type bits. -/
def buildDirs (noStat : Bool) : List rawEntry → List dirEntry
  | [] => []
  | e :: rest =>
    if !noStat then
      match e.info with
      | .error _ => buildDirs noStat rest
      | .ok fi => ⟨⟨fi.Nm, fi.Sz, fi.Md, fi.Mt⟩⟩ :: buildDirs noStat rest
    else
      ⟨⟨e.name, 0, e.typ, 0⟩⟩ :: buildDirs noStat rest

/-- Directory branch of the getter: the loop never fails, so the load of a
directory listing always succeeds with the collected children (per-child
errors are confined to the loop). -/
def loadDirectory (noStat : Bool) (entries : List rawEntry) :
    Except Unit (List dirEntry) :=
  .ok (buildDirs noStat entries)

/-! ## Key quantization: `quantize` and adler32

Go integer division truncates toward zero (`Int.tdiv`); int64 arithmetic
wraps modulo `2^64` (`wrap64`), and int64 division wraps its one
overflowing case (`goDiv64`).  The float64 offset expression
`time.Duration(float64(sum) * float64(d) / float64(2<<31) / 4.0)` is
modelled bit-exactly: `float64(sum)` is exact (`sum < 2^32 ≤ 2^53`);
`float64(d)` rounds the int64 to 53 significant bits, round-to-nearest
with ties to even (`rnd53`); float64 multiplication rounds the exact
product of the two operand values the same way; the divisions by
`float64(2<<31) = 2^32` and by `4.0` are exact power-of-two scalings of a
normal float; and the `time.Duration(...)` conversion truncates toward
zero.  The divisor `int64(d.Nanoseconds() + offset.Nanoseconds())` is the
wrapping int64 sum, and the final division is Go int64 division. -/

/-- Model of `hash/adler32.Checksum` (Go standard library): running sums
`a` (starting at 1) and `b` (starting at 0) modulo 65521, combined as
`b<<16 | a`. -/
def adler32 (s : List Nat) : Nat :=
  let p := s.foldl (fun (ab : Nat × Nat) c =>
    ((ab.1 + c) % 65521, (ab.2 + (ab.1 + c) % 65521) % 65521)) (1, 0)
  p.2 * 65536 + p.1

/-- Floor of the base-2 logarithm by fuelled halving; exact whenever the
input is below `2 ^ fuel` (and positive). -/
def floorLog2Aux : Nat → Nat → Nat
  | 0, _ => 0
  | fuel + 1, x => if x < 2 then 0 else floorLog2Aux fuel (x / 2) + 1

/-- Floor of the base-2 logarithm, exact for every input below `2 ^ 128` —
which covers every value this model feeds it (all are below `2 ^ 96`). -/
def floorLog2 (x : Nat) : Nat :=
  floorLog2Aux 128 x

/-- IEEE-754 round-to-nearest, ties to even, of an integer-valued real to
53 significant bits: the rounding float64 applies to the integers this
model produces.  Integers below `2 ^ 53` are exactly representable and
pass through unchanged; larger ones keep their top 53 bits, rounding the
rest away. -/
def rnd53Nat (x : Nat) : Nat :=
  if x < 2 ^ 53 then x
  else if 2 ^ (floorLog2 x - 52) < 2 * (x % 2 ^ (floorLog2 x - 52)) ∨
      (2 * (x % 2 ^ (floorLog2 x - 52)) = 2 ^ (floorLog2 x - 52) ∧
        (x / 2 ^ (floorLog2 x - 52)) % 2 = 1) then
    (x / 2 ^ (floorLog2 x - 52) + 1) * 2 ^ (floorLog2 x - 52)
  else x / 2 ^ (floorLog2 x - 52) * 2 ^ (floorLog2 x - 52)

/-- Sign-symmetric float64 rounding of an integer-valued real (IEEE
rounding commutes with negation). -/
def rnd53 (i : Int) : Int :=
  if 0 ≤ i then (rnd53Nat i.toNat : Int) else -(rnd53Nat (-i).toNat : Int)

/-- Wrap an integer into the int64 range `[-2^63, 2^63)`, as Go's int64
arithmetic does on overflow. -/
def wrap64 (x : Int) : Int :=
  (x + 2 ^ 63) % 2 ^ 64 - 2 ^ 63

/-- Go int64 division: truncated division wrapped back into int64 (the
only wrapping case is `MinInt64 / -1`, which Go defines to wrap).  Go
panics on a zero divisor; the program's divisor is proven nonzero, so
that case is never reached. -/
def goDiv64 (a b : Int) : Int :=
  wrap64 (Int.tdiv a b)

/-- Offset derived from a checksum: `float64(sum) * float64(d) /
float64(2<<31) / 4.0` converted to `time.Duration` (the `quantizeOffset`
helper of the source, also inlined in `quantize`): the float64 product of
the exactly-represented `sum` and the rounded `d`, itself rounded to
float64, scaled exactly by `2^-34`, truncated toward zero.  Its magnitude
is below `2^61`, so the Duration conversion cannot overflow. -/
def quantizeOffset (sum : Nat) (d : Int) : Int :=
  Int.tdiv (rnd53 ((sum : Int) * rnd53 d)) (2 ^ 34)

/-- Divisor used by `quantize`: the int64 sum
`int64(d.Nanoseconds() + offset.Nanoseconds())`, the per-path effective
period — a wrapping int64 addition, which overflows for windows close to
the int64 maximum. -/
def quantizeDivisor (d : Int) (s : List Nat) : Int :=
  wrap64 (d + quantizeOffset (adler32 s) d)

/-- Model of `quantize` from the source: 0 when the duration is zero,
otherwise the int64 division `t.UnixNano() / int64(d.Nanoseconds() +
offset.Nanoseconds())`. -/
def quantize (t : Int) (d : Int) (s : List Nat) : Int :=
  if d = 0 then 0
  else goDiv64 t (quantizeDivisor d s)

/-! ### Facts about adler32 and the quantize arithmetic -/

theorem adler32_foldl_bound (s : List Nat) (ab : Nat × Nat)
    (h1 : ab.1 < 65521) (h2 : ab.2 < 65521) :
    (s.foldl (fun (ab : Nat × Nat) c =>
      ((ab.1 + c) % 65521, (ab.2 + (ab.1 + c) % 65521) % 65521)) ab).1 < 65521 ∧
    (s.foldl (fun (ab : Nat × Nat) c =>
      ((ab.1 + c) % 65521, (ab.2 + (ab.1 + c) % 65521) % 65521)) ab).2 < 65521 := by
  induction s generalizing ab with
  | nil => exact ⟨h1, h2⟩
  | cons c rest ih =>
    simp only [List.foldl_cons]
    exact ih _ (Nat.mod_lt _ (by omega)) (Nat.mod_lt _ (by omega))

/-- The adler32 checksum fits in 32 bits. -/
theorem adler32_lt (s : List Nat) : adler32 s < 2 ^ 32 := by
  have h := adler32_foldl_bound s (1, 0) (by omega) (by omega)
  simp only [adler32]
  omega

/-- Correctness of the fuelled log: it brackets a positive input between
consecutive powers of two. -/
theorem floorLog2Aux_correct (fuel x : Nat) (h1 : 1 ≤ x) (h2 : x < 2 ^ fuel) :
    2 ^ floorLog2Aux fuel x ≤ x ∧ x < 2 ^ (floorLog2Aux fuel x + 1) := by
  induction fuel generalizing x with
  | zero =>
    simp only [pow_zero] at h2
    omega
  | succ fuel ih =>
    rw [floorLog2Aux]
    by_cases hx : x < 2
    · rw [if_pos hx]
      refine ⟨by simpa using h1, by simpa using hx⟩
    · rw [if_neg hx]
      have hfuel : x / 2 < 2 ^ fuel := by
        rw [pow_succ] at h2
        omega
      have hrec := ih (x / 2) (by omega) hfuel
      constructor
      · rw [pow_succ]
        omega
      · rw [pow_succ, pow_succ]
        rw [pow_succ] at hrec
        omega

/-- The float64 rounding moves an integer below `2 ^ 128` by at most its
`2 ^ -52`-th part in either direction. -/
theorem rnd53Nat_bounds (x : Nat) (hx : x < 2 ^ 128) :
    rnd53Nat x ≤ x + x / 2 ^ 52 ∧ x ≤ rnd53Nat x + x / 2 ^ 52 := by
  rw [rnd53Nat]
  by_cases hsmall : x < 2 ^ 53
  · rw [if_pos hsmall]
    omega
  · rw [if_neg hsmall]
    have hx1 : 1 ≤ x := by omega
    have hcorr : 2 ^ floorLog2 x ≤ x ∧ x < 2 ^ (floorLog2 x + 1) := by
      unfold floorLog2
      exact floorLog2Aux_correct 128 x hx1 hx
    set L := floorLog2 x with hL
    have hL53 : 53 ≤ L := by
      by_contra hcon
      have hle : 2 ^ (L + 1) ≤ 2 ^ 53 := Nat.pow_le_pow_right (by omega) (by omega)
      omega
    have hEx : 2 ^ 52 * 2 ^ (L - 52) ≤ x := by
      rw [← pow_add]
      have he : 52 + (L - 52) = L := by omega
      rw [he]
      exact hcorr.1
    have hE1 : 1 ≤ 2 ^ (L - 52) := Nat.one_le_two_pow
    have hEdiv : 2 ^ (L - 52) ≤ x / 2 ^ 52 :=
      (Nat.le_div_iff_mul_le (by norm_num)).mpr (by omega)
    have hqr := Nat.div_add_mod x (2 ^ (L - 52))
    have hrE : x % 2 ^ (L - 52) < 2 ^ (L - 52) := Nat.mod_lt _ (by omega)
    have hup : (x / 2 ^ (L - 52) + 1) * 2 ^ (L - 52) =
        2 ^ (L - 52) * (x / 2 ^ (L - 52)) + 2 ^ (L - 52) := by ring
    have hdown : x / 2 ^ (L - 52) * 2 ^ (L - 52) =
        2 ^ (L - 52) * (x / 2 ^ (L - 52)) := by ring
    by_cases hc : 2 ^ (L - 52) < 2 * (x % 2 ^ (L - 52)) ∨
        (2 * (x % 2 ^ (L - 52)) = 2 ^ (L - 52) ∧ (x / 2 ^ (L - 52)) % 2 = 1)
    · rw [if_pos hc, hup]
      omega
    · rw [if_neg hc, hdown]
      omega

/-- Core bound: for a positive window within int64 range, the float-path
offset `trunc(fl(fl(sum) * fl(d)) / 2^34)` stays under a quarter of the
window. -/
theorem offsetNat_quarter (sum d : Nat) (hsum : sum < 2 ^ 32)
    (hd1 : 1 ≤ d) (hd63 : d ≤ 2 ^ 63) :
    4 * (rnd53Nat (sum * rnd53Nat d) / 2 ^ 34) < d := by
  have hD := rnd53Nat_bounds d (by omega)
  have hprod : sum * rnd53Nat d ≤ 4294967295 * rnd53Nat d :=
    Nat.mul_le_mul_right _ (by omega)
  have hX128 : sum * rnd53Nat d < 2 ^ 128 := by omega
  have hP := rnd53Nat_bounds (sum * rnd53Nat d) hX128
  omega

/-- Cast helper: truncated division of a natural by `2 ^ 34`. -/
theorem ofNat_tdiv_pow (m : Nat) :
    Int.tdiv (m : Int) (2 ^ 34) = ((m / 2 ^ 34 : Nat) : Int) := by
  have h := Int.ofNat_tdiv m (2 ^ 34)
  have hc : ((2 ^ 34 : Nat) : Int) = 2 ^ 34 := by norm_num
  rw [hc] at h
  exact h.symm

theorem rnd53_natCast (x : Nat) : rnd53 ((x : Nat) : Int) = (rnd53Nat x : Int) := by
  unfold rnd53
  rw [if_pos (Int.ofNat_nonneg x), Int.toNat_natCast]

theorem rnd53_neg_natCast (x : Nat) : rnd53 (-((x : Nat) : Int)) = -(rnd53Nat x : Int) := by
  unfold rnd53
  by_cases hx : x = 0
  · subst hx
    have h0 : rnd53Nat 0 = 0 := by
      rw [rnd53Nat]
      norm_num
    simp [h0]
  · rw [if_neg (by omega)]
    rw [show -(-((x : Nat) : Int)) = ((x : Nat) : Int) by ring, Int.toNat_natCast]

/-- Shape of the offset for a positive window: a nonnegative natural
computation. -/
theorem quantizeOffset_eq_pos (sum : Nat) (d : Int) (hd : 0 < d) :
    quantizeOffset sum d =
      ((rnd53Nat (sum * rnd53Nat d.toNat) / 2 ^ 34 : Nat) : Int) := by
  unfold quantizeOffset
  have h1 : rnd53 d = (rnd53Nat d.toNat : Int) := by
    unfold rnd53
    rw [if_pos (by omega)]
  rw [h1,
    show (sum : Int) * (rnd53Nat d.toNat : Int) =
      ((sum * rnd53Nat d.toNat : Nat) : Int) by push_cast; ring,
    rnd53_natCast, ofNat_tdiv_pow]

/-- Shape of the offset for a negative window: the negation of a natural
computation. -/
theorem quantizeOffset_eq_neg (sum : Nat) (d : Int) (hd : d < 0) :
    quantizeOffset sum d =
      -((rnd53Nat (sum * rnd53Nat (-d).toNat) / 2 ^ 34 : Nat) : Int) := by
  unfold quantizeOffset
  have h1 : rnd53 d = -(rnd53Nat (-d).toNat : Int) := by
    unfold rnd53
    rw [if_neg (by omega)]
  rw [h1,
    show (sum : Int) * -(rnd53Nat (-d).toNat : Int) =
      -((sum * rnd53Nat (-d).toNat : Nat) : Int) by push_cast; ring,
    rnd53_neg_natCast, Int.neg_tdiv, ofNat_tdiv_pow]

theorem quantizeOffset_nonneg (sum : Nat) (d : Int) (hd : 0 < d) :
    0 ≤ quantizeOffset sum d := by
  rw [quantizeOffset_eq_pos sum d hd]
  exact Int.ofNat_nonneg _

/-- Quarter bound, positive windows: `4 * offset < d`. -/
theorem quantizeOffset_lt_quarter_pos (sum : Nat) (d : Int) (hsum : sum < 2 ^ 32)
    (hd : 0 < d) (hd63 : d ≤ 2 ^ 63) :
    4 * quantizeOffset sum d < d := by
  rw [quantizeOffset_eq_pos sum d hd]
  have h := offsetNat_quarter sum d.toNat hsum (by omega) (by omega)
  omega

/-- Quarter bound, negative windows: the offset is nonpositive and
`d < 4 * offset`. -/
theorem quantizeOffset_quarter_neg (sum : Nat) (d : Int) (hsum : sum < 2 ^ 32)
    (hd : d < 0) (hd63 : -(2 ^ 63) ≤ d) :
    quantizeOffset sum d ≤ 0 ∧ d < 4 * quantizeOffset sum d := by
  rw [quantizeOffset_eq_neg sum d hd]
  have h := offsetNat_quarter sum (-d).toNat hsum (by omega) (by omega)
  constructor
  · omega
  · omega

/-- Identity range of the int64 wrap. -/
theorem wrap64_eq_self (x : Int) (h1 : -(2 ^ 63) ≤ x) (h2 : x < 2 ^ 63) :
    wrap64 x = x := by
  unfold wrap64
  omega

/-- A nonzero integer of magnitude below `2 ^ 64` wraps to a nonzero
int64. -/
theorem wrap64_ne_zero (x : Int) (h0 : x ≠ 0) (h1 : -(2 ^ 64) < x) (h2 : x < 2 ^ 64) :
    wrap64 x ≠ 0 := by
  unfold wrap64
  omega

/-- Truncated division by a positive divisor keeps int64-range dividends
in int64 range. -/
theorem tdiv_range (a k : Int) (hk : 0 < k) (h1 : -(2 ^ 63) ≤ a) (h2 : a < 2 ^ 63) :
    -(2 ^ 63) ≤ Int.tdiv a k ∧ Int.tdiv a k < 2 ^ 63 := by
  rcases le_or_lt 0 a with ha | ha
  · have he : Int.tdiv a k = a / k := Int.tdiv_eq_ediv ha (le_of_lt hk)
    have hle : a / k ≤ a := Int.ediv_le_self k ha
    have hnn : 0 ≤ a / k := Int.ediv_nonneg ha (le_of_lt hk)
    omega
  · have hneg := Int.neg_tdiv a k
    have he : Int.tdiv (-a) k = (-a) / k := Int.tdiv_eq_ediv (by omega) (le_of_lt hk)
    have hle : (-a) / k ≤ -a := Int.ediv_le_self k (by omega)
    have hnn : 0 ≤ (-a) / k := Int.ediv_nonneg (by omega) (le_of_lt hk)
    omega

/-- Truncated division is monotone in the dividend for a positive divisor. -/
theorem tdiv_le_tdiv_of_le (a b k : Int) (hk : 0 < k) (hab : a ≤ b) :
    Int.tdiv a k ≤ Int.tdiv b k := by
  rcases le_or_lt 0 a with ha | ha
  · have hb : 0 ≤ b := le_trans ha hab
    rw [Int.tdiv_eq_ediv ha (le_of_lt hk), Int.tdiv_eq_ediv hb (le_of_lt hk)]
    exact Int.ediv_le_ediv hk hab
  · rcases le_or_lt 0 b with hb | hb
    · have h1 : Int.tdiv a k ≤ 0 := by
        have : Int.tdiv (-a) k ≥ 0 := by
          rw [Int.tdiv_eq_ediv (by omega) (le_of_lt hk)]
          exact Int.ediv_nonneg (by omega) (le_of_lt hk)
        have hneg := Int.neg_tdiv a k
        omega
      have h2 : 0 ≤ Int.tdiv b k := by
        rw [Int.tdiv_eq_ediv hb (le_of_lt hk)]
        exact Int.ediv_nonneg hb (le_of_lt hk)
      omega
    · have ha2 : (0 : Int) ≤ -a := by omega
      have hb2 : (0 : Int) ≤ -b := by omega
      have h1 := Int.neg_tdiv a k
      have h2 := Int.neg_tdiv b k
      have h3 : Int.tdiv (-b) k ≤ Int.tdiv (-a) k := by
        rw [Int.tdiv_eq_ediv hb2 (le_of_lt hk), Int.tdiv_eq_ediv ha2 (le_of_lt hk)]
        exact Int.ediv_le_ediv hk (by omega)
      omega

/-! ## The composite cache key: `net/url` query encoding

`cacheFS.Open` builds the key with `url.Values.Encode` over the two
entries `t=<bucket>` and `path=<name>`; the getter recovers the path with
`url.ParseQuery(key)` followed by `q.Get("path")`.  The `net/url` escaping
and parsing (query-component mode) is modelled byte-for-byte: bytes kept
verbatim are ASCII alphanumerics and `- _ . ~`, space becomes `+`, every
other byte becomes `%XX` with uppercase hex; `ParseQuery` splits on `&`,
rejects `;`, splits each piece at the first `=`, and unescapes key and
value (accepting upper- and lowercase hex). -/

/-- Byte kept unescaped by Go's query escaping: ASCII alphanumeric or one
of `-`, `_`, `.`, `~`. -/
def isUnreservedQueryByte (b : Nat) : Bool :=
  (65 ≤ b && b ≤ 90) || (97 ≤ b && b ≤ 122) || (48 ≤ b && b ≤ 57) ||
    b == 45 || b == 95 || b == 46 || b == 126

/-- Uppercase hex digit of a value below 16 (Go's `"0123456789ABCDEF"`). -/
def hexDigitUpper (n : Nat) : Nat :=
  if n < 10 then 48 + n else 55 + n

/-- Model of `url.QueryEscape` over bytes. -/
def queryEscape : List Nat → List Nat
  | [] => []
  | b :: r =>
    (if isUnreservedQueryByte b then [b]
     else if b = 32 then [43]
     else [37, hexDigitUpper (b / 16), hexDigitUpper (b % 16)]) ++ queryEscape r

/-- Value of an ASCII hex digit (upper or lower case accepted, as in Go's
`unhex`). -/
def unhex (c : Nat) : Option Nat :=
  if 48 ≤ c ∧ c ≤ 57 then some (c - 48)
  else if 65 ≤ c ∧ c ≤ 70 then some (c - 55)
  else if 97 ≤ c ∧ c ≤ 102 then some (c - 87)
  else none

/-- Model of `url.QueryUnescape` over bytes: `+` is space, `%XX` is a hex
escape (error when malformed), anything else passes through. -/
def queryUnescape : List Nat → Option (List Nat)
  | [] => some []
  | b :: r =>
    if b = 43 then (queryUnescape r).map (32 :: ·)
    else if b = 37 then
      match r with
      | h :: l :: r2 =>
        match unhex h, unhex l with
        | some hh, some ll => (queryUnescape r2).map ((16 * hh + ll) :: ·)
        | _, _ => none
      | _ => none
    else (queryUnescape r).map (b :: ·)
  termination_by s => s.length
  decreasing_by all_goals simp_wf <;> omega

/-- Model of `strings.Cut`: the part before the first separator, the part
after it, and whether the separator occurred. -/
def cutList (sep : Nat) : List Nat → List Nat × List Nat × Bool
  | [] => ([], [], false)
  | b :: r =>
    if b = sep then ([], r, true)
    else
      let p := cutList sep r
      (b :: p.1, p.2.1, p.2.2)

theorem cutList_shrinks (sep : Nat) (s : List Nat) (h : s ≠ []) :
    (cutList sep s).2.1.length < s.length := by
  induction s with
  | nil => exact absurd rfl h
  | cons b r ih =>
    simp only [cutList]
    by_cases hb : b = sep
    · rw [if_pos hb]
      simp
    · rw [if_neg hb]
      rcases r with _ | ⟨c, r2⟩
      · simp [cutList]
      · have := ih (by simp)
        simpa using Nat.lt_succ_of_lt this

/-- Model of `url.ParseQuery`: split the query on `&`, reject pieces
containing `;`, skip empty pieces, cut each piece at the first `=`, and
unescape key and value; the result keeps the pairs in input order (Go
stores them in a map of value lists; only first-value lookups are modelled,
which the map preserves).  A `none` result models a non-nil error. -/
def parseQuery (s : List Nat) : Option (List (List Nat × List Nat)) :=
  if hs : s = [] then some []
  else
    let piece := (cutList 38 s).1
    let rest := (cutList 38 s).2.1
    have hrec : rest.length < s.length := cutList_shrinks 38 s hs
    if piece.contains 59 then none
    else if piece = [] then parseQuery rest
    else
      let kv := cutList 61 piece
      match queryUnescape kv.1, queryUnescape kv.2.1, parseQuery rest with
      | some k, some v, some m => some ((k, v) :: m)
      | _, _, _ => none
  termination_by s.length

/-- Model of `url.Values.Get`: the first value recorded for the key, or the
empty string when the key is absent. -/
def valuesGet (qs : List (List Nat × List Nat)) (k : List Nat) : List Nat :=
  ((qs.find? (fun p => p.1 == k)).map Prod.snd).getD []

/-- ASCII decimal digits of a natural (empty for zero). -/
def natDigitsAux (n : Nat) : List Nat :=
  if h : n = 0 then []
  else natDigitsAux (n / 10) ++ [48 + n % 10]
  decreasing_by exact Nat.div_lt_self (by omega) (by omega)

/-- Model of `strconv.FormatInt(i, 10)`: ASCII decimal, with a leading `-`
for negatives. -/
def formatInt (i : Int) : List Nat :=
  if i < 0 then 45 :: natDigitsAux (-i).toNat
  else if i = 0 then [48]
  else natDigitsAux i.toNat

/-- The byte string `path`. -/
def pathKey : List Nat := [112, 97, 116, 104]

/-- The byte string `t`. -/
def tKey : List Nat := [116]

/-- Model of `url.Values.Encode` for an already-key-sorted pair list:
`escape(k)=escape(v)` pieces joined by `&`. -/
def valuesEncode (pairs : List (List Nat × List Nat)) : List Nat :=
  (List.intersperse [38]
    (pairs.map fun p => queryEscape p.1 ++ [61] ++ queryEscape p.2)).flatten

/-- Composite cache key built by `cacheFS.Open`: the two `url.Values`
entries `path=<name>` and `t=<bucket>`; `Encode` emits keys in sorted
order, so `path` comes first. -/
def openCacheKey (bucket : Int) (name : List Nat) : List Nat :=
  valuesEncode [(pathKey, name), (tKey, formatInt bucket)]

/-- Path recovery performed by `New`'s getter on a cache miss:
`url.ParseQuery(key)` (failing on a parse error) followed by
`q.Get("path")`. -/
def loaderRecoverPath (key : List Nat) : Option (List Nat) :=
  match parseQuery key with
  | some qs => some (valuesGet qs pathKey)
  | none => none

/-! ### Lemmas about the query encoding -/

theorem unhex_hexDigitUpper (n : Nat) (h : n < 16) :
    unhex (hexDigitUpper n) = some n := by
  unfold unhex hexDigitUpper
  by_cases h10 : n < 10
  · rw [if_pos h10, if_pos (by omega)]
    simp only [Option.some.injEq]
    omega
  · rw [if_neg h10, if_neg (by omega), if_pos (by omega)]
    simp only [Option.some.injEq]
    omega

theorem isUnreserved_not_special (b : Nat) (h : isUnreservedQueryByte b = true) :
    b ≠ 43 ∧ b ≠ 37 ∧ b ≠ 38 ∧ b ≠ 61 ∧ b ≠ 59 ∧ b ≠ 32 := by
  unfold isUnreservedQueryByte at h
  simp only [Bool.or_eq_true, Bool.and_eq_true, decide_eq_true_eq, beq_iff_eq] at h
  omega

theorem hexDigitUpper_not_special (n : Nat) :
    hexDigitUpper n ≠ 38 ∧ hexDigitUpper n ≠ 61 ∧ hexDigitUpper n ≠ 59 := by
  unfold hexDigitUpper
  by_cases h : n < 10
  · rw [if_pos h]
    omega
  · rw [if_neg h]
    omega

/-- No byte of a query-escaped string is `&`, `=`, or `;`. -/
theorem queryEscape_no_meta (s : List Nat) :
    ∀ c ∈ queryEscape s, c ≠ 38 ∧ c ≠ 61 ∧ c ≠ 59 := by
  induction s with
  | nil => simp [queryEscape]
  | cons b r ih =>
    intro c hc
    simp only [queryEscape, List.mem_append] at hc
    rcases hc with hc | hc
    · by_cases hu : isUnreservedQueryByte b
      · rw [if_pos hu] at hc
        simp only [List.mem_singleton] at hc
        have h0 := isUnreserved_not_special b hu
        omega
      · rw [if_neg hu] at hc
        by_cases hsp : b = 32
        · rw [if_pos hsp] at hc
          simp only [List.mem_singleton] at hc
          omega
        · rw [if_neg hsp] at hc
          simp only [List.mem_cons, List.not_mem_nil, or_false] at hc
          have h1 := hexDigitUpper_not_special (b / 16)
          have h2 := hexDigitUpper_not_special (b % 16)
          rcases hc with hc | hc | hc
          · omega
          · omega
          · omega
    · exact ih c hc

theorem queryUnescape_cons (b : Nat) (r : List Nat) :
    queryUnescape (b :: r) =
      if b = 43 then (queryUnescape r).map (32 :: ·)
      else if b = 37 then
        match r with
        | h :: l :: r2 =>
          match unhex h, unhex l with
          | some hh, some ll => (queryUnescape r2).map ((16 * hh + ll) :: ·)
          | _, _ => none
        | _ => none
      else (queryUnescape r).map (b :: ·) := by
  rw [queryUnescape.eq_def]

/-- Unescaping inverts escaping, byte strings being sequences of bytes. -/
theorem queryUnescape_queryEscape (s : List Nat) (hs : ∀ b ∈ s, b < 256) :
    queryUnescape (queryEscape s) = some s := by
  induction s with
  | nil => simp [queryEscape, queryUnescape]
  | cons b r ih =>
    have hb : b < 256 := hs b (List.mem_cons_self b r)
    have ihr := ih (fun c hc => hs c (List.mem_cons_of_mem b hc))
    simp only [queryEscape]
    by_cases hu : isUnreservedQueryByte b
    · rw [if_pos hu]
      have hns := isUnreserved_not_special b hu
      rw [List.singleton_append, queryUnescape_cons,
        if_neg hns.1, if_neg hns.2.1, ihr]
      rfl
    · rw [if_neg hu]
      by_cases hsp : b = 32
      · rw [if_pos hsp, List.singleton_append, queryUnescape_cons, if_pos rfl, ihr]
        subst hsp
        rfl
      · rw [if_neg hsp]
        show queryUnescape
          (37 :: hexDigitUpper (b / 16) :: hexDigitUpper (b % 16) :: queryEscape r) =
          some (b :: r)
        rw [queryUnescape_cons, if_neg (by omega), if_pos rfl]
        simp only [unhex_hexDigitUpper (b / 16) (by omega),
          unhex_hexDigitUpper (b % 16) (by omega), ihr, Option.map_some]
        have hbb : 16 * (b / 16) + b % 16 = b := by omega
        rw [hbb]
        rfl

/-- Strings whose bytes are neither `+` nor `%` unescape to themselves. -/
theorem queryUnescape_plain (s : List Nat)
    (hs : ∀ b ∈ s, b ≠ 43 ∧ b ≠ 37) :
    queryUnescape s = some s := by
  induction s with
  | nil => simp [queryUnescape]
  | cons b r ih =>
    have hb := hs b (List.mem_cons_self b r)
    have ihr := ih (fun c hc => hs c (List.mem_cons_of_mem b hc))
    rw [queryUnescape_cons, if_neg hb.1, if_neg hb.2, ihr]
    rfl

/-- Strings of unreserved bytes escape to themselves. -/
theorem queryEscape_plain (s : List Nat)
    (hs : ∀ b ∈ s, isUnreservedQueryByte b = true) :
    queryEscape s = s := by
  induction s with
  | nil => rfl
  | cons b r ih =>
    have hb := hs b (List.mem_cons_self b r)
    have ihr := ih (fun c hc => hs c (List.mem_cons_of_mem b hc))
    simp only [queryEscape]
    rw [if_pos hb, ihr]
    rfl

theorem cutList_of_not_mem (sep : Nat) (s : List Nat) (h : sep ∉ s) :
    cutList sep s = (s, [], false) := by
  induction s with
  | nil => rfl
  | cons b r ih =>
    simp only [cutList]
    rw [if_neg (by intro hb; exact h (hb ▸ List.mem_cons_self b r))]
    rw [ih (fun hr => h (List.mem_cons_of_mem b hr))]

theorem cutList_append (sep : Nat) (a b : List Nat) (h : sep ∉ a) :
    cutList sep (a ++ sep :: b) = (a, b, true) := by
  induction a with
  | nil => simp [cutList]
  | cons x r ih =>
    simp only [List.cons_append, cutList]
    rw [if_neg (by intro hx; exact h (hx ▸ List.mem_cons_self x r))]
    simp only [List.append_eq]
    rw [ih (fun hr => h (List.mem_cons_of_mem x hr))]

theorem natDigitsAux_bytes (n : Nat) :
    ∀ c ∈ natDigitsAux n, 48 ≤ c ∧ c ≤ 57 := by
  induction n using Nat.strong_induction_on with
  | _ n ih =>
    rw [natDigitsAux]
    by_cases h : n = 0
    · rw [dif_pos h]
      simp
    · rw [dif_neg h]
      intro c hc
      rcases List.mem_append.mp hc with hc | hc
      · exact ih (n / 10) (Nat.div_lt_self (by omega) (by omega)) c hc
      · simp only [List.mem_singleton] at hc
        omega

theorem formatInt_bytes (i : Int) :
    ∀ c ∈ formatInt i, isUnreservedQueryByte c = true := by
  intro c hc
  unfold formatInt at hc
  have hdig : ∀ m : Nat, 48 ≤ m → m ≤ 57 → isUnreservedQueryByte m = true := by
    intro m h1 h2
    unfold isUnreservedQueryByte
    simp only [Bool.or_eq_true, Bool.and_eq_true, decide_eq_true_eq, beq_iff_eq]
    omega
  by_cases hneg : i < 0
  · rw [if_pos hneg] at hc
    rcases List.mem_cons.mp hc with hc | hc
    · subst hc; rfl
    · have := natDigitsAux_bytes (-i).toNat c hc
      exact hdig c this.1 this.2
  · rw [if_neg hneg] at hc
    by_cases hz : i = 0
    · rw [if_pos hz] at hc
      simp only [List.mem_singleton] at hc
      subst hc; rfl
    · rw [if_neg hz] at hc
      have := natDigitsAux_bytes i.toNat c hc
      exact hdig c this.1 this.2

/-- Evaluation of `parseQuery` on a well-formed `key=value&rest` query. -/
theorem parseQuery_pair_cons (k v rest ku vu : List Nat)
    (m : List (List Nat × List Nat))
    (hk : k ≠ [])
    (h38k : 38 ∉ k) (h38v : 38 ∉ v)
    (h59k : 59 ∉ k) (h59v : 59 ∉ v)
    (h61k : 61 ∉ k)
    (hku : queryUnescape k = some ku) (hvu : queryUnescape v = some vu)
    (hrest : parseQuery rest = some m) :
    parseQuery ((k ++ 61 :: v) ++ 38 :: rest) = some ((ku, vu) :: m) := by
  have h38 : (38 : Nat) ∉ k ++ 61 :: v := by
    intro hmem
    rcases List.mem_append.mp hmem with hmem | hmem
    · exact h38k hmem
    · rcases List.mem_cons.mp hmem with hmem | hmem
      · omega
      · exact h38v hmem
  have h59 : (59 : Nat) ∉ k ++ 61 :: v := by
    intro hmem
    rcases List.mem_append.mp hmem with hmem | hmem
    · exact h59k hmem
    · rcases List.mem_cons.mp hmem with hmem | hmem
      · omega
      · exact h59v hmem
  have hne : (k ++ 61 :: v) ++ 38 :: rest ≠ [] := by
    simp
  rw [parseQuery]
  rw [dif_neg hne]
  have hcut : cutList 38 ((k ++ 61 :: v) ++ 38 :: rest) = (k ++ 61 :: v, rest, true) :=
    cutList_append 38 (k ++ 61 :: v) rest h38
  simp only [hcut]
  rw [if_neg (by simpa using h59)]
  rw [if_neg (by simp [hk])]
  have hcut2 : cutList 61 (k ++ 61 :: v) = (k, v, true) := cutList_append 61 k v h61k
  simp only [hcut2, hku, hvu, hrest]

/-- Evaluation of `parseQuery` on a final `key=value` chunk. -/
theorem parseQuery_pair_last (k v ku vu : List Nat)
    (hk : k ≠ [])
    (h38k : 38 ∉ k) (h38v : 38 ∉ v)
    (h59k : 59 ∉ k) (h59v : 59 ∉ v)
    (h61k : 61 ∉ k)
    (hku : queryUnescape k = some ku) (hvu : queryUnescape v = some vu) :
    parseQuery (k ++ 61 :: v) = some [(ku, vu)] := by
  have h38 : (38 : Nat) ∉ k ++ 61 :: v := by
    intro hmem
    rcases List.mem_append.mp hmem with hmem | hmem
    · exact h38k hmem
    · rcases List.mem_cons.mp hmem with hmem | hmem
      · omega
      · exact h38v hmem
  have h59 : (59 : Nat) ∉ k ++ 61 :: v := by
    intro hmem
    rcases List.mem_append.mp hmem with hmem | hmem
    · exact h59k hmem
    · rcases List.mem_cons.mp hmem with hmem | hmem
      · omega
      · exact h59v hmem
  have hne : k ++ 61 :: v ≠ [] := by
    simp
  rw [parseQuery]
  rw [dif_neg hne]
  have hcut : cutList 38 (k ++ 61 :: v) = (k ++ 61 :: v, [], false) :=
    cutList_of_not_mem 38 _ h38
  simp only [hcut]
  rw [if_neg (by simpa using h59)]
  rw [if_neg (by simp [hk])]
  have hcut2 : cutList 61 (k ++ 61 :: v) = (k, v, true) := cutList_append 61 k v h61k
  have hnil : parseQuery [] = some [] := by
    rw [parseQuery]
    simp
  simp only [hcut2, hku, hvu, hnil]

/-! ### Directory paging lemmas -/

theorem take_min_length {α : Type} (l : List α) (a : Nat) :
    l.take (min a l.length) = l.take a := by
  simp [List.take_eq_take]

theorem drop_min_length {α : Type} (l : List α) (a : Nat) :
    l.drop (min a l.length) = l.drop a := by
  rcases le_total a l.length with h | h
  · rw [min_eq_left h]
  · rw [min_eq_right h, List.drop_of_length_le h, List.drop_of_length_le (le_refl _)]

/-- Partition of a list into consecutive chunks of `n` elements (the last
chunk may be shorter); describes the batches the spec expects from paged
directory reads. -/
def chunksOf {α : Type} (n : Nat) : List α → List (List α)
  | [] => []
  | a :: l => (a :: l).take n :: chunksOf n ((a :: l).drop (max n 1))
  termination_by l => l.length
  decreasing_by simp [List.length_drop]

theorem chunksOf_flatten {α : Type} (n : Nat) (hn : 1 ≤ n) (l : List α) :
    (chunksOf n l).flatten = l := by
  suffices h : ∀ (len : Nat) (l : List α), l.length = len → (chunksOf n l).flatten = l from
    h l.length l rfl
  intro len
  induction len using Nat.strong_induction_on with
  | _ len ih =>
    intro l hl
    cases l with
    | nil => simp [chunksOf]
    | cons a r =>
      rw [chunksOf]
      rw [max_eq_left hn]
      simp only [List.flatten_cons]
      have hlen : ((a :: r).drop n).length < len := by
        subst hl
        simp only [List.length_drop, List.length_cons]
        omega
      rw [ih _ hlen _ rfl]
      exact List.take_append_drop n (a :: r)

theorem chunksOf_length {α : Type} (n : Nat) (hn : 1 ≤ n) (l : List α) :
    (chunksOf n l).length = (l.length + n - 1) / n := by
  suffices h : ∀ (len : Nat) (l : List α), l.length = len →
      (chunksOf n l).length = (l.length + n - 1) / n from h l.length l rfl
  intro len
  induction len using Nat.strong_induction_on with
  | _ len ih =>
    intro l hl
    cases l with
    | nil =>
      simp only [chunksOf, List.length_nil]
      rw [Nat.div_eq_of_lt (by omega)]
    | cons a r =>
      rw [chunksOf, max_eq_left hn]
      simp only [List.length_cons]
      have hlen : ((a :: r).drop n).length < len := by
        subst hl
        simp only [List.length_drop, List.length_cons]
        omega
      rw [ih _ hlen _ rfl]
      simp only [List.length_drop, List.length_cons]
      rcases le_or_lt (r.length + 1) n with h | h
      · have h1 : r.length + 1 - n = 0 := by omega
        have h2 : (r.length + 1 + n - 1) / n = 1 := by
          have e1 : r.length + 1 + n - 1 = r.length + n := by omega
          rw [e1, Nat.add_div_right _ (by omega), Nat.div_eq_of_lt (by omega)]
        have h3 : (r.length + 1 - n + n - 1) / n = 0 := by
          rw [h1]
          exact Nat.div_eq_of_lt (by omega)
        rw [h3, h2]
      · have h1 : r.length + 1 - n + n - 1 = r.length + 1 - 1 := by omega
        have h2 : r.length + 1 + n - 1 = (r.length + 1 - 1) + n := by omega
        rw [h1, h2, Nat.add_div_right _ (by omega)]

theorem chunksOf_ne_nil {α : Type} (n : Nat) (hn : 1 ≤ n) (l : List α) :
    ∀ page ∈ chunksOf n l, page ≠ [] := by
  suffices h : ∀ (len : Nat) (l : List α), l.length = len →
      ∀ page ∈ chunksOf n l, page ≠ [] from h l.length l rfl
  intro len
  induction len using Nat.strong_induction_on with
  | _ len ih =>
    intro l hl
    cases l with
    | nil => simp [chunksOf]
    | cons a r =>
      rw [chunksOf, max_eq_left hn]
      intro page hpage
      rcases List.mem_cons.mp hpage with hp | hp
      · subst hp
        simp only [List.take_cons (by omega : 0 < n)]
        intro habs
        cases habs
      · have hlen : ((a :: r).drop n).length < len := by
          subst hl
          simp only [List.length_drop, List.length_cons]
          omega
        exact ih _ hlen _ rfl page hp

theorem chunksOf_of_ne_nil {α : Type} (n : Nat) (l : List α) (h : l ≠ []) :
    chunksOf n l = l.take n :: chunksOf n (l.drop (max n 1)) := by
  cases l with
  | nil => exact absurd rfl h
  | cons a r => rw [chunksOf]

/-- Paged read at the end of the directory yields `io.EOF` with an empty
result and leaves the state alone. -/
theorem ReadDir_eof (f : file) (n : Int) (hdir : f.FI.IsDir = true)
    (hn : 0 < n) (hpos : f.pos = (f.Dirs.length : Int)) :
    f.ReadDir n = (.error .eof, f) := by
  unfold file.ReadDir
  rw [if_neg (by simp [hdir]), if_neg (by omega), if_pos (by omega)]

/-- Paged read before the end of the directory yields the next
`min n (len - pos)` entries and advances the cursor by that count. -/
theorem ReadDir_ok (f : file) (n : Int) (hdir : f.FI.IsDir = true)
    (hn : 0 < n) (hpos : f.pos < (f.Dirs.length : Int)) :
    f.ReadDir n =
      (.ok ((f.Dirs.drop f.pos.toNat).take (min n ((f.Dirs.length : Int) - f.pos)).toNat),
       { f with pos := f.pos + min n ((f.Dirs.length : Int) - f.pos) }) := by
  unfold file.ReadDir
  rw [if_neg (by simp [hdir]), if_neg (by omega), if_neg (by omega)]

/-- Run of repeated paged reads from any reachable state: the batches are
exactly the `n`-chunks of the remaining entries, followed by a single
`io.EOF`, with the cursor parked at the end. -/
theorem readDirPagesAux_run (fuel : Nat) (f : file) (n : Int)
    (hdir : f.FI.IsDir = true) (hn : 0 < n) (hinv : cursorInv f)
    (hfuel : f.Dirs.length - f.pos.toNat < fuel) :
    readDirPagesAux fuel f n =
      (chunksOf n.toNat (f.Dirs.drop f.pos.toNat), some .eof,
        { f with pos := (f.Dirs.length : Int) }) := by
  induction fuel generalizing f with
  | zero => omega
  | succ fuel ih =>
    obtain ⟨hpos0, hposle⟩ := hinv
    rcases eq_or_lt_of_le hposle with hpos | hpos
    · have hdrop : f.Dirs.drop f.pos.toNat = [] :=
        List.drop_of_length_le (by omega)
      have hupd : { f with pos := (f.Dirs.length : Int) } = f := by
        rw [← hpos]
      simp only [readDirPagesAux, ReadDir_eof f n hdir hn hpos, hdrop, hupd]
      simp [chunksOf]
    · have hmin0 : (0 : Int) < min n ((f.Dirs.length : Int) - f.pos) := by omega
      have hinv1 : cursorInv { f with pos := f.pos + min n ((f.Dirs.length : Int) - f.pos) } := by
        constructor
        · show (0 : Int) ≤ f.pos + min n ((f.Dirs.length : Int) - f.pos)
          omega
        · show f.pos + min n ((f.Dirs.length : Int) - f.pos) ≤ (f.Dirs.length : Int)
          omega
      have hfuel1 : f.Dirs.length -
          (f.pos + min n ((f.Dirs.length : Int) - f.pos)).toNat < fuel := by
        omega
      simp only [readDirPagesAux, ReadDir_ok f n hdir hn hpos]
      rw [ih { f with pos := f.pos + min n ((f.Dirs.length : Int) - f.pos) } hdir hinv1 hfuel1]
      simp only []
      have hchunk : chunksOf n.toNat (f.Dirs.drop f.pos.toNat) =
          (f.Dirs.drop f.pos.toNat).take (min n ((f.Dirs.length : Int) - f.pos)).toNat ::
          chunksOf n.toNat
            (f.Dirs.drop (f.pos + min n ((f.Dirs.length : Int) - f.pos)).toNat) := by
        have hne : f.Dirs.drop f.pos.toNat ≠ [] := by
          intro habs
          have := congrArg List.length habs
          simp only [List.length_drop, List.length_nil] at this
          omega
        rw [chunksOf_of_ne_nil n.toNat _ hne]
        have hmax : max n.toNat 1 = n.toNat := by omega
        rw [hmax]
        have hrem : (f.Dirs.drop f.pos.toNat).length = f.Dirs.length - f.pos.toNat := by
          simp [List.length_drop]
        have htake : (f.Dirs.drop f.pos.toNat).take n.toNat =
            (f.Dirs.drop f.pos.toNat).take (min n ((f.Dirs.length : Int) - f.pos)).toNat := by
          rw [show (min n ((f.Dirs.length : Int) - f.pos)).toNat =
            min n.toNat ((f.Dirs.drop f.pos.toNat).length) by rw [hrem]; omega]
          rw [take_min_length]
        have hdrop2 : (f.Dirs.drop f.pos.toNat).drop n.toNat =
            f.Dirs.drop (f.pos + min n ((f.Dirs.length : Int) - f.pos)).toNat := by
          rw [List.drop_drop]
          rcases le_or_lt ((f.Dirs.length : Int) - f.pos) n with hc | hc
          · rw [List.drop_of_length_le (by omega), List.drop_of_length_le (by omega)]
          · congr 1
            omega
        rw [htake, hdrop2]
      rw [hchunk]

/-! ## Remaining helper lemmas -/

/-- Full decode of an encoded record, as `cacheFS.Open` performs it. -/
theorem cacheFSOpenDecode_encodeRecord (f : file) (data : List Nat) :
    cacheFSOpenDecode (encodeRecord f data) = some (⟨f.FI, 0, f.Dirs⟩, data) := by
  unfold cacheFSOpenDecode encodeRecord
  rw [gobDecFile_append f data 0]
  simp only [countingReader.Count, Nat.zero_add]
  rw [List.drop_left]

/-- The gob decoder never invents a directory cursor: a decoded `file` has
`pos = 0`. -/
theorem gobDecFile_pos (c : countingReader) (g : file) (c2 : countingReader)
    (h : gobDecFile c = some (g, c2)) : g.pos = 0 := by
  unfold gobDecFile at h
  cases hfi : gobDecFileInfo c with
  | none => rw [hfi] at h; simp at h
  | some v =>
    obtain ⟨fi, c1⟩ := v
    rw [hfi] at h
    simp only [] at h
    cases hd : gobDecDirs c1 with
    | none => rw [hd] at h; simp at h
    | some w =>
      obtain ⟨dirs, c3⟩ := w
      rw [hd] at h
      simp only [Option.some.injEq, Prod.mk.injEq] at h
      rw [← h.1]

/-- One `ReadDir` call preserves the cursor invariant. -/
theorem cursorInv_ReadDir (f : file) (n : Int) (h : cursorInv f) :
    cursorInv (f.ReadDir n).2 := by
  obtain ⟨h1, h2⟩ := h
  unfold file.ReadDir
  by_cases hd : ¬ f.FI.IsDir
  · rw [if_pos hd]; exact ⟨h1, h2⟩
  · rw [if_neg hd]
    by_cases hn : n ≤ 0
    · rw [if_pos hn]; exact ⟨h1, h2⟩
    · rw [if_neg hn]
      by_cases hm : min n ((f.Dirs.length : Int) - f.pos) = 0
      · rw [if_pos hm]; exact ⟨h1, h2⟩
      · rw [if_neg hm]
        constructor
        · show (0 : Int) ≤ f.pos + min n ((f.Dirs.length : Int) - f.pos)
          omega
        · show f.pos + min n ((f.Dirs.length : Int) - f.pos) ≤ (f.Dirs.length : Int)
          omega

/-- Any sequence of `ReadDir` calls preserves the cursor invariant. -/
theorem cursorInv_applyReadDirs (f : file) (calls : List Int) (h : cursorInv f) :
    cursorInv (applyReadDirs f calls) := by
  induction calls generalizing f with
  | nil => exact h
  | cons c rest ih =>
    have hstep := cursorInv_ReadDir f c h
    simp only [applyReadDirs, List.foldl_cons]
    exact ih _ hstep

/-- The getter's listing loop distributes over concatenation. -/
theorem buildDirs_append (noStat : Bool) (a b : List rawEntry) :
    buildDirs noStat (a ++ b) = buildDirs noStat a ++ buildDirs noStat b := by
  induction a with
  | nil => rfl
  | cons e r ih =>
    cases noStat with
    | true =>
      simp only [List.cons_append, buildDirs, Bool.not_true, Bool.false_eq_true,
        if_false, List.append_eq]
      rw [ih]
    | false =>
      simp only [List.cons_append, buildDirs, Bool.not_false, if_true,
        List.append_eq]
      cases e.info with
      | error u => exact ih
      | ok fi => rw [ih]; rfl

/-- A child whose `Info()` call fails contributes nothing to the listing. -/
theorem buildDirs_error_cons (e : rawEntry) (rest : List rawEntry) (err : Unit)
    (h : e.info = .error err) :
    buildDirs false (e :: rest) = buildDirs false rest := by
  simp only [buildDirs, Bool.not_false, if_true, h]

/-! ## Sample data for concrete instances -/

/-- Metadata record whose mode has the directory bit (bit 31) set. -/
def sampleDirFI : fileInfo := ⟨[100], 0, 2 ^ 31, 0⟩

/-- A first sample child entry. -/
def sampleEntryA : dirEntry := ⟨⟨[97], 1, 0, 0⟩⟩

/-- A second, distinct sample child entry. -/
def sampleEntryB : dirEntry := ⟨⟨[98], 2, 0, 0⟩⟩

/-- A two-child directory with the cursor at 0, as produced by decoding. -/
def sampleDir2 : file := ⟨sampleDirFI, 0, [sampleEntryA, sampleEntryB]⟩

/-- A child whose `Info()` call succeeds. -/
def sampleOkA : rawEntry := ⟨[97], 0, .ok ⟨[97], 1, 0, 0⟩⟩

/-- Another child whose `Info()` call succeeds. -/
def sampleOkB : rawEntry := ⟨[98], 0, .ok ⟨[98], 2, 0, 0⟩⟩

/-- A child whose `Info()` call fails. -/
def sampleErrEntry : rawEntry := ⟨[120], 0, .error ()⟩

/-! ## Claim theorems -/

/-- C1.  Round-trip codec law: encoding any metadata record, children list
and content bytes (gob header followed by the raw content) and decoding the
resulting buffer (gob decode through the byte-counting reader, then slicing
the buffer from the counted offset) yields equal metadata, the same
children in the same order, and exactly the original content bytes; the
counting reader's final count — the split offset — equals the exact number
of bytes the gob header occupies, i.e. the bytes the decoder consumed. -/
theorem codec_roundtrip (fi : fileInfo) (p : Int) (dirs : List dirEntry)
    (content : List Nat) :
    gobDecFile ⟨(file.mk fi p dirs).gobEncode ++ content, 0⟩ =
      some (⟨fi, 0, dirs⟩, ⟨content, (file.mk fi p dirs).gobEncode.length⟩) ∧
    cacheFSOpenDecode (encodeRecord ⟨fi, p, dirs⟩ content) =
      some (⟨fi, 0, dirs⟩, content) := by
  constructor
  · have h1 := gobDecFile_append ⟨fi, p, dirs⟩ content 0
    simpa using h1
  · exact cacheFSOpenDecode_encodeRecord ⟨fi, p, dirs⟩ content

/-- C2 counterexample.  With the cursor advanced to 1 by a prior
`ReadDir 1` on a two-child directory, `ReadDir 0` (the `n ≤ 0` case)
returns BOTH children — not the single remaining child from the cursor —
and leaves the cursor at 1 instead of moving it to the end. -/
theorem readDir_nonpositive_cex :
    ((sampleDir2.ReadDir 1).2.ReadDir 0).1 = .ok [sampleEntryA, sampleEntryB] ∧
    ((sampleDir2.ReadDir 1).2.ReadDir 0).2.pos = 1 ∧
    sampleDir2.Dirs.drop (((sampleDir2.ReadDir 1).2.pos).toNat) = [sampleEntryB] ∧
    ([sampleEntryA, sampleEntryB] : List dirEntry) ≠ [sampleEntryB] ∧
    (1 : Int) ≠ (sampleDir2.Dirs.length : Int) := by
  refine ⟨rfl, rfl, rfl, ?_, by decide⟩
  decide

/-- C2 amended.  For every open directory entry, `read_directory` with
`n ≤ 0` returns ALL of the directory's children from the beginning —
regardless of the current cursor — in one call, leaves the cursor (and the
whole state) unchanged, and returns a nil error even when the directory has
no children. -/
theorem readDir_nonpositive_returns_all (f : file) (n : Int)
    (hdir : f.FI.IsDir = true) (hn : n ≤ 0) :
    f.ReadDir n = (.ok f.Dirs, f) := by
  unfold file.ReadDir
  rw [if_neg (by simp [hdir]), if_pos hn]

/-- C2 amended, witness: an empty directory read with `n = 0` gives an
empty result and no error. -/
theorem readDir_nonpositive_returns_all_witness :
    (file.mk sampleDirFI 0 []).ReadDir 0 = (.ok [], file.mk sampleDirFI 0 []) :=
  readDir_nonpositive_returns_all (file.mk sampleDirFI 0 []) 0 (by decide) (by decide)

/-- C7.  Decoding performs no validation of the content length against the
header's `metadata.size`: a well-formed encoded header followed by a raw
tail whose length differs from the stated size still decodes without
error, and the content view is exactly that tail. -/
theorem decode_ignores_size (f : file) (tail : List Nat)
    (hmis : (tail.length : Int) ≠ f.FI.Sz) :
    cacheFSOpenDecode (encodeRecord f tail) = some (⟨f.FI, 0, f.Dirs⟩, tail) :=
  cacheFSOpenDecode_encodeRecord f tail

/-- C7 witness: a header claiming size 5 over a 2-byte tail decodes
successfully with the 2-byte tail as content. -/
theorem decode_ignores_size_witness :
    cacheFSOpenDecode (encodeRecord (file.mk ⟨[97], 5, 0, 0⟩ 0 []) [1, 2]) =
      some (file.mk ⟨[97], 5, 0, 0⟩ 0 [], [1, 2]) :=
  decode_ignores_size (file.mk ⟨[97], 5, 0, 0⟩ 0 []) [1, 2] (by decide)

/-- C8.  In the getter's directory listing with per-child metadata
collection enabled (`noStat = false`), a child whose `Info()` call fails is
silently omitted: the whole load still succeeds (returns `.ok`), the
remaining children appear in the original enumeration order, and no
per-child error reaches the caller. -/
theorem loader_skips_failing_child (pre post : List rawEntry) (e : rawEntry)
    (err : Unit) (h : e.info = .error err) :
    loadDirectory false (pre ++ e :: post) =
      .ok (buildDirs false pre ++ buildDirs false post) := by
  unfold loadDirectory
  rw [show pre ++ e :: post = pre ++ (e :: post) from rfl, buildDirs_append,
    buildDirs_error_cons e post err h]

/-- C8 witness: a failing middle child is dropped; the flanking children
survive in order and the load succeeds. -/
theorem loader_skips_failing_child_witness :
    loadDirectory false [sampleOkA, sampleErrEntry, sampleOkB] =
      .ok (buildDirs false [sampleOkA] ++ buildDirs false [sampleOkB]) :=
  loader_skips_failing_child [sampleOkA] [sampleOkB] sampleErrEntry () rfl

/-- C3.  Paged directory reads with `n > 0`: a call before the end returns
the next `min n (len - cursor)` children (hence at most `n`, starting at
the cursor, in original order), never an empty batch, and advances the
cursor by the count returned; a call with the cursor at the end returns an
empty result with `io.EOF`; and starting from a fresh cursor, repeated
calls yield exactly the `ceil(N/n)` non-empty batches that concatenate
back to all `N` children in order, followed by a single EOF result, with
the cursor parked at `N`. -/
theorem readDir_paging (fi : fileInfo) (dirs : List dirEntry) (n : Int)
    (hdir : fi.IsDir = true) (hn : 0 < n) :
    (∀ f : file, f.FI = fi → cursorInv f → f.pos = (f.Dirs.length : Int) →
        f.ReadDir n = (.error .eof, f)) ∧
    (∀ f : file, f.FI = fi → cursorInv f → f.pos < (f.Dirs.length : Int) →
        f.ReadDir n =
          (.ok ((f.Dirs.drop f.pos.toNat).take
              (min n ((f.Dirs.length : Int) - f.pos)).toNat),
           { f with pos := f.pos + min n ((f.Dirs.length : Int) - f.pos) }) ∧
        (f.Dirs.drop f.pos.toNat).take
            (min n ((f.Dirs.length : Int) - f.pos)).toNat ≠ []) ∧
    readDirPages ⟨fi, 0, dirs⟩ n =
      (chunksOf n.toNat dirs, some .eof, ⟨fi, (dirs.length : Int), dirs⟩) ∧
    (chunksOf n.toNat dirs).flatten = dirs ∧
    (chunksOf n.toNat dirs).length = (dirs.length + n.toNat - 1) / n.toNat ∧
    ∀ page ∈ chunksOf n.toNat dirs, page ≠ [] := by
  have hn1 : 1 ≤ n.toNat := by omega
  refine ⟨?_, ?_, ?_, ?_, ?_, ?_⟩
  · intro f hfi hinv hpos
    exact ReadDir_eof f n (by rw [hfi]; exact hdir) hn hpos
  · intro f hfi hinv hpos
    refine ⟨ReadDir_ok f n (by rw [hfi]; exact hdir) hn hpos, ?_⟩
    have hlen : ((f.Dirs.drop f.pos.toNat).take
        (min n ((f.Dirs.length : Int) - f.pos)).toNat).length =
        min (min n ((f.Dirs.length : Int) - f.pos)).toNat
          (f.Dirs.length - f.pos.toNat) := by
      simp [List.length_take, List.length_drop]
    intro habs
    rw [habs] at hlen
    simp only [List.length_nil] at hlen
    obtain ⟨h1, h2⟩ := hinv
    omega
  · unfold readDirPages
    have h0 := readDirPagesAux_run (dirs.length + 1) ⟨fi, 0, dirs⟩ n hdir hn
      ⟨le_refl 0, Int.ofNat_nonneg dirs.length⟩ (by simp)
    simpa using h0
  · exact chunksOf_flatten n.toNat hn1 dirs
  · exact chunksOf_length n.toNat hn1 dirs
  · exact chunksOf_ne_nil n.toNat hn1 dirs

/-- C3 witness: a three-child directory paged two at a time yields two
batches (of sizes 2 and 1, i.e. ceil(3/2) = 2) followed by EOF with the
cursor at 3. -/
theorem readDir_paging_witness :
    readDirPages ⟨sampleDirFI, 0, [sampleEntryA, sampleEntryB, sampleEntryA]⟩ 2 =
      (chunksOf 2 [sampleEntryA, sampleEntryB, sampleEntryA], some .eof,
        ⟨sampleDirFI, 3, [sampleEntryA, sampleEntryB, sampleEntryA]⟩) ∧
    (chunksOf 2 [sampleEntryA, sampleEntryB, sampleEntryA]).flatten =
      [sampleEntryA, sampleEntryB, sampleEntryA] ∧
    chunksOf 2 [sampleEntryA, sampleEntryB, sampleEntryA] =
      [[sampleEntryA, sampleEntryB], [sampleEntryA]] := by
  have h := readDir_paging sampleDirFI [sampleEntryA, sampleEntryB, sampleEntryA] 2
    (by decide) (by decide)
  refine ⟨h.2.2.1, h.2.2.2.1, ?_⟩
  have hnil : chunksOf 2 ([] : List dirEntry) = [] := by
    rw [chunksOf.eq_def]
  rw [chunksOf_of_ne_nil 2 _ (by decide)]
  rw [show ([sampleEntryA, sampleEntryB, sampleEntryA] : List dirEntry).drop (max 2 1) =
    [sampleEntryA] from rfl]
  rw [chunksOf_of_ne_nil 2 _ (by decide)]
  rw [show ([sampleEntryA] : List dirEntry).drop (max 2 1) = [] from rfl, hnil]
  rfl

/-- C9.  Cursor invariant: an entry decoded from a cache buffer starts
with its cursor at 0, and after any sequence of `read_directory` calls
with arbitrary arguments the cursor still satisfies
`0 ≤ cursor ≤ len(children)`. -/
theorem readDir_cursor_invariant (buf : List Nat) (f : file) (tail : List Nat)
    (calls : List Int) (hdec : cacheFSOpenDecode buf = some (f, tail)) :
    f.pos = 0 ∧ cursorInv f ∧ cursorInv (applyReadDirs f calls) := by
  have hpos : f.pos = 0 := by
    unfold cacheFSOpenDecode at hdec
    cases hg : gobDecFile ⟨buf, 0⟩ with
    | none => rw [hg] at hdec; simp at hdec
    | some v =>
      obtain ⟨g, rdr⟩ := v
      rw [hg] at hdec
      simp only [Option.some.injEq, Prod.mk.injEq] at hdec
      rw [← hdec.1]
      exact gobDecFile_pos ⟨buf, 0⟩ g rdr hg
  have hinv : cursorInv f := by
    constructor
    · omega
    · rw [hpos]
      exact Int.ofNat_nonneg f.Dirs.length
  exact ⟨hpos, hinv, cursorInv_applyReadDirs f calls hinv⟩

/-- C9 witness: a concrete decoded two-child directory keeps its cursor in
bounds across a mixed call sequence. -/
theorem readDir_cursor_invariant_witness :
    sampleDir2.pos = 0 ∧ cursorInv sampleDir2 ∧
    cursorInv (applyReadDirs sampleDir2 [1, -1, 5, 1]) :=
  readDir_cursor_invariant (encodeRecord sampleDir2 []) sampleDir2 [] [1, -1, 5, 1]
    (cacheFSOpenDecode_encodeRecord sampleDir2 [])

/-- C4 counterexample.  At window `d = 1` (one nanosecond), the paths `"a"`
and `"b"` have different adler32 checksums, yet the float64 offset
computation (exact at these small magnitudes) truncates to 0 for both, so
the two effective periods (the int64 divisors computed by `quantize`) are
EQUAL — the claim "the effective periods differ whenever the checksums
differ" fails for every window too small for distinct checksums to yield
distinct truncated offsets. -/
theorem quantize_jitter_cex :
    adler32 [97] ≠ adler32 [98] ∧
    quantizeDivisor 1 [97] = quantizeDivisor 1 [98] := by
  constructor
  · decide
  · decide

/-- C4 amended.  For every window `0 < d ≤ 2^62` — where the int64 sum
`d + offset` cannot overflow — both effective periods lie in
`[window, window * 1.25)`, and the effective periods differ whenever the
float-path offsets `trunc(fl(sum) * fl(d) / 2^34)` differ; distinct
adler32 checksums alone do not guarantee distinct periods (the offsets
may collide after truncation, e.g. for `d = 1`), and for windows close to
the int64 maximum the divisor wraps and leaves the interval. -/
theorem quantize_jitter_amended (d : Int) (s1 s2 : List Nat)
    (hd : 0 < d) (hd62 : d ≤ 2 ^ 62) :
    (quantizeOffset (adler32 s1) d ≠ quantizeOffset (adler32 s2) d →
      quantizeDivisor d s1 ≠ quantizeDivisor d s2) ∧
    (d ≤ quantizeDivisor d s1 ∧ 4 * quantizeDivisor d s1 < 5 * d) ∧
    (d ≤ quantizeDivisor d s2 ∧ 4 * quantizeDivisor d s2 < 5 * d) := by
  have h1q := quantizeOffset_lt_quarter_pos (adler32 s1) d (adler32_lt s1) hd (by omega)
  have h2q := quantizeOffset_lt_quarter_pos (adler32 s2) d (adler32_lt s2) hd (by omega)
  have h1n := quantizeOffset_nonneg (adler32 s1) d hd
  have h2n := quantizeOffset_nonneg (adler32 s2) d hd
  have hw1 : quantizeDivisor d s1 = d + quantizeOffset (adler32 s1) d := by
    unfold quantizeDivisor
    exact wrap64_eq_self _ (by omega) (by omega)
  have hw2 : quantizeDivisor d s2 = d + quantizeOffset (adler32 s2) d := by
    unfold quantizeDivisor
    exact wrap64_eq_self _ (by omega) (by omega)
  refine ⟨?_, ⟨?_, ?_⟩, ⟨?_, ?_⟩⟩
  · intro hne
    rw [hw1, hw2]
    omega
  · rw [hw1]
    omega
  · rw [hw1]
    omega
  · rw [hw2]
    omega
  · rw [hw2]
    omega

/-- C4 amended, witness: at window `d = 2^34` the float path is exact and
the offsets are the raw checksums, so the effective periods for `"a"` and
`"b"` differ and sit in the stated band. -/
theorem quantize_jitter_amended_witness :
    quantizeDivisor (2 ^ 34) [97] ≠ quantizeDivisor (2 ^ 34) [98] ∧
    2 ^ 34 ≤ quantizeDivisor (2 ^ 34) [97] ∧
    4 * quantizeDivisor (2 ^ 34) [97] < 5 * 2 ^ 34 := by
  have h := quantize_jitter_amended (2 ^ 34) [97] [98] (by norm_num) (by norm_num)
  exact ⟨h.1 (by decide), h.2.1.1, h.2.1.2⟩

/-- C5 counterexample.  At the in-range window `d = 2^63 - 1`
(`time.Duration` is int64, so this is a legal positive window) and path
`"a"`, the int64 divisor `d + offset` overflows and wraps to the negative
value -9219923915776720897; dividing by it gives `quantize 0 = 0` but
`quantize (2^63-1) = -1`, so quantize is NOT non-decreasing in `now` for
every window > 0. -/
theorem quantize_not_monotone_cex :
    (0 : Int) < 9223372036854775807 ∧
    (0 : Int) ≤ (9223372036854775807 : Int) ∧
    quantizeDivisor 9223372036854775807 [97] = -9219923915776720897 ∧
    quantize 0 9223372036854775807 [97] = 0 ∧
    quantize 9223372036854775807 9223372036854775807 [97] = -1 ∧
    ¬ (quantize 0 9223372036854775807 [97] ≤
        quantize 9223372036854775807 9223372036854775807 [97]) := by
  refine ⟨by norm_num, by norm_num, ?_, ?_, ?_, ?_⟩
  · decide
  · decide
  · decide
  · decide

/-- C5 amended.  For a fixed path: with every window `0 < d ≤ 2^62` — so
the per-path int64 divisor cannot overflow — `quantize` is a
non-decreasing step function of `now` over int64 time values (for larger
windows the wrapped negative divisor breaks monotonicity); with window 0
the bucket is the constant 0 for every time, so the composite cache key
for a given path never changes. -/
theorem quantize_stability_amended (s p : List Nat) (d t1 t2 : Int) :
    (0 < d → d ≤ 2 ^ 62 → -(2 ^ 63) ≤ t1 → t1 ≤ t2 → t2 < 2 ^ 63 →
      quantize t1 d s ≤ quantize t2 d s) ∧
    quantize t1 0 s = 0 ∧
    openCacheKey (quantize t1 0 p) p = openCacheKey (quantize t2 0 p) p := by
  have hz : ∀ (t : Int) (q : List Nat), quantize t 0 q = 0 := fun t q => by
    simp [quantize]
  refine ⟨?_, hz t1 s, ?_⟩
  · intro hd hd62 hlo hle hhi
    have hq := quantizeOffset_lt_quarter_pos (adler32 s) d (adler32_lt s) hd (by omega)
    have hn := quantizeOffset_nonneg (adler32 s) d hd
    have hw : quantizeDivisor d s = d + quantizeOffset (adler32 s) d := by
      unfold quantizeDivisor
      exact wrap64_eq_self _ (by omega) (by omega)
    have hpos : 0 < quantizeDivisor d s := by
      rw [hw]
      omega
    unfold quantize
    rw [if_neg (by omega), if_neg (by omega)]
    unfold goDiv64
    have hr1 := tdiv_range t1 (quantizeDivisor d s) hpos hlo (by omega)
    have hr2 := tdiv_range t2 (quantizeDivisor d s) hpos (by omega) hhi
    rw [wrap64_eq_self _ hr1.1 hr1.2, wrap64_eq_self _ hr2.1 hr2.2]
    exact tdiv_le_tdiv_of_le t1 t2 _ hpos hle
  · rw [hz t1 p, hz t2 p]

/-- C5 amended, witness: concrete monotonicity inside the no-overflow
range, and window-0 constancy. -/
theorem quantize_stability_amended_witness :
    quantize 5 2 [97] ≤ quantize 9 2 [97] ∧ quantize 5 0 [97] = 0 ∧
    openCacheKey (quantize 5 0 [97]) [97] = openCacheKey (quantize 9 0 [97]) [97] :=
  ⟨(quantize_stability_amended [97] [97] 2 5 9).1 (by norm_num) (by norm_num)
      (by norm_num) (by norm_num) (by norm_num),
   (quantize_stability_amended [97] [97] 2 5 9).2.1,
   (quantize_stability_amended [97] [97] 2 5 9).2.2⟩

/-- C6.  The composite cache key `Values.Encode` of `t=<bucket>` and
`path=<name>` is exactly reversible: `url.ParseQuery` in the getter
succeeds on it and `Get("path")` recovers the original path, for every
byte string (URL-special characters included) and every bucket. -/
theorem cache_key_roundtrip (bucket : Int) (name : List Nat)
    (hname : ∀ b ∈ name, b < 256) :
    loaderRecoverPath (openCacheKey bucket name) = some name := by
  have hfmt := formatInt_bytes bucket
  have hkey : openCacheKey bucket name =
      (pathKey ++ 61 :: queryEscape name) ++ 38 :: (tKey ++ 61 :: formatInt bucket) := by
    unfold openCacheKey valuesEncode
    simp only [List.map_cons, List.map_nil]
    rw [queryEscape_plain pathKey (by decide), queryEscape_plain tKey (by decide),
      queryEscape_plain (formatInt bucket) hfmt]
    simp [List.intersperse, List.append_assoc]
  have hrest : parseQuery (tKey ++ 61 :: formatInt bucket) =
      some [(tKey, formatInt bucket)] := by
    apply parseQuery_pair_last
    · decide
    · decide
    · intro hm
      exact ((isUnreserved_not_special _ (hfmt _ hm)).2.2.1) rfl
    · decide
    · intro hm
      exact ((isUnreserved_not_special _ (hfmt _ hm)).2.2.2.2.1) rfl
    · decide
    · exact queryUnescape_plain tKey (by decide)
    · exact queryUnescape_plain (formatInt bucket) (fun b hb =>
        ⟨(isUnreserved_not_special b (hfmt b hb)).1,
         (isUnreserved_not_special b (hfmt b hb)).2.1⟩)
  have hparse : parseQuery (openCacheKey bucket name) =
      some [(pathKey, name), (tKey, formatInt bucket)] := by
    rw [hkey]
    apply parseQuery_pair_cons
    · decide
    · decide
    · intro hm
      exact (queryEscape_no_meta name _ hm).1 rfl
    · decide
    · intro hm
      exact (queryEscape_no_meta name _ hm).2.2 rfl
    · decide
    · exact queryUnescape_plain pathKey (by decide)
    · exact queryUnescape_queryEscape name hname
    · exact hrest
  unfold loaderRecoverPath
  rw [hparse]
  simp [valuesGet, List.find?]

/-- C6 witness: a path containing the URL-special byte `/` (47) survives
the key round trip. -/
theorem cache_key_roundtrip_witness :
    loaderRecoverPath (openCacheKey 0 [47, 97]) = some [47, 97] :=
  cache_key_roundtrip 0 [47, 97] (by decide)

/-- C10.  For every nonzero int64 window `d` (positive or negative) and
every path, the int64 divisor computed inside `quantize` — the wrapping
sum of `d` and the checksum-derived offset — is nonzero, because the
offset's magnitude is strictly below `|d|` (so the exact sum is nonzero
and of magnitude below `2^64`, and wrapping cannot send it to zero); the
division in `quantize` is therefore never a division by zero, and
`quantize` is total for all `d ≠ 0`, computing the int64 division of `t`
by that divisor. -/
theorem quantize_divisor_nonzero (t d : Int) (s : List Nat)
    (hd : d ≠ 0) (hlo : -(2 ^ 63) ≤ d) (hhi : d < 2 ^ 63) :
    quantizeDivisor d s ≠ 0 ∧
    |quantizeOffset (adler32 s) d| < |d| ∧
    quantize t d s = goDiv64 t (quantizeDivisor d s) := by
  have hlt := adler32_lt s
  rcases lt_or_gt_of_ne hd with hneg | hpos
  · have hb := quantizeOffset_quarter_neg (adler32 s) d hlt hneg hlo
    refine ⟨?_, ?_, ?_⟩
    · unfold quantizeDivisor
      apply wrap64_ne_zero
      · omega
      · omega
      · omega
    · rw [abs_of_nonpos hb.1, abs_of_neg hneg]
      omega
    · unfold quantize
      rw [if_neg hd]
  · have hb1 := quantizeOffset_nonneg (adler32 s) d hpos
    have hb2 := quantizeOffset_lt_quarter_pos (adler32 s) d hlt hpos (by omega)
    refine ⟨?_, ?_, ?_⟩
    · unfold quantizeDivisor
      apply wrap64_ne_zero
      · omega
      · omega
      · omega
    · rw [abs_of_nonneg hb1, abs_of_pos hpos]
      omega
    · unfold quantize
      rw [if_neg hd]

/-- C10 witness: a negative window also yields a nonzero divisor and a
small offset. -/
theorem quantize_divisor_nonzero_witness :
    quantizeDivisor (-5) [97] ≠ 0 ∧
    |quantizeOffset (adler32 [97]) (-5)| < |(-5 : Int)| ∧
    quantize 100 (-5) [97] = goDiv64 100 (quantizeDivisor (-5) [97]) :=
  quantize_divisor_nonzero 100 (-5) [97] (by norm_num) (by norm_num) (by norm_num)
